import Mathlib

/-!
Shallow embedding of the LD-JSON compaction core (pchampin/json-ld).

JSON values are modelled by the `Json` inductive below; JSON objects are
insertion-ordered association lists, matching the behaviour of the generic
`J::Object` map used by the sources (`src/json/mod.rs`).  Machine strings are
Lean `String`s, numbers are `Int` (no claim depends on number semantics).
-/

namespace JsonLd

/-- JSON tree, mirroring `json::Value` of `src/json/mod.rs` with objects as
insertion-ordered association lists. -/
inductive Json where
  | null
  | boolean (b : Bool)
  | number (n : Int)
  | string (s : String)
  | array (items : List Json)
  | object (entries : List (String × Json))

/-- JSON objects: the `J::Object` associated type, as an association list. -/
abbrev Obj := List (String × Json)

/-- Forward lookup in a JSON object (`Get` of `cc_traits`). -/
def Obj.get : Obj → String → Option Json
  | [], _ => none
  | (k, v) :: rest, key => if k = key then some v else Obj.get rest key

/-- Insertion in a JSON object (`MapInsert` of `cc_traits`): replaces the value
in place when the key is already present, appends otherwise. -/
def Obj.insert : Obj → String → Json → Obj
  | [], key, value => [(key, value)]
  | (k, v) :: rest, key, value =>
    if k = key then (k, value) :: rest else (k, v) :: Obj.insert rest key value

theorem Obj.get_insert_self (m : Obj) (k : String) (v : Json) :
    (Obj.insert m k v).get k = some v := by
  induction m with
  | nil => simp [Obj.insert, Obj.get]
  | cons hd tl ih =>
    obtain ⟨k', v'⟩ := hd
    by_cases h : k' = k <;> simp [Obj.insert, Obj.get, h, ih]

theorem Obj.get_insert_ne (m : Obj) (k k' : String) (v : Json) (h : k' ≠ k) :
    (Obj.insert m k v).get k' = m.get k' := by
  induction m with
  | nil =>
    simp only [Obj.insert, Obj.get, if_neg (Ne.symm h)]
  | cons hd tl ih =>
    obtain ⟨k₀, v₀⟩ := hd
    by_cases h₀ : k₀ = k
    · subst h₀
      simp only [Obj.insert, if_pos rfl, Obj.get, if_neg (Ne.symm h)]
    · simp only [Obj.insert, if_neg h₀, Obj.get]
      by_cases h₁ : k₀ = k' <;> simp [h₁, ih]

/-- `is_null` test on JSON values (`src/json/mod.rs`). -/
def Json.is_null : Json → Bool
  | .null => true
  | _ => false

/-- `is_empty` test on JSON values (`ValueRef::is_empty`, `src/json/mod.rs`). -/
def Json.is_empty : Json → Bool
  | .null => true
  | .boolean b => !b
  | .number n => n == 0
  | .string s => s.isEmpty
  | .array a => a.isEmpty
  | .object o => o.isEmpty

/-!
Section: `add_value` (src/src/compaction/mod.rs, lines 184-218)

The Rust function mutates the map in place; the embedding threads the map.
The `unreachable!()` arm is modelled by returning `none`.
-/

/-- First phase of `add_value`: the initial `match` that normalizes the entry
under `key` (an existing non-array entry is promoted to a singleton array, an
absent entry is seeded with `[]` when `as_array` is requested). -/
def addValuePhase1 (map : Obj) (key : String) (asArray : Bool) : Obj :=
  match map.get key with
  | some (Json.array _) => map
  | some original => map.insert key (Json.array [original])
  | none => if asArray then map.insert key (Json.array []) else map

mutual

/-- `add_value` of `src/src/compaction/mod.rs`: `none` models the
`unreachable!()` panic arm. -/
def add_value (map : Obj) (key : String) (value : Json) (asArray : Bool) :
    Option Obj :=
  let m := addValuePhase1 map key asArray
  match value with
  | Json.array vs => addValueAll m key vs
  | v =>
    match m.get key with
    | some (Json.array items) => some (m.insert key (Json.array (items ++ [v])))
    | some _ => none
    | none => some (m.insert key v)

/-- The `for value in values { add_value(map, key, value, false) }` loop of
`add_value`'s array branch. -/
def addValueAll (map : Obj) (key : String) (vs : List Json) : Option Obj :=
  match vs with
  | [] => some map
  | v :: rest =>
    match add_value map key v false with
    | some m => addValueAll m key rest
    | none => none

end

mutual

/-- Boolean structural equality on JSON values (the `PartialEq` bound of the
`Json` trait). -/
def Json.beq : Json → Json → Bool
  | .null, .null => true
  | .boolean a, .boolean b => a == b
  | .number a, .number b => a == b
  | .string a, .string b => a == b
  | .array a, .array b => Json.beqList a b
  | .object a, .object b => Json.beqObj a b
  | _, _ => false

def Json.beqList : List Json → List Json → Bool
  | [], [] => true
  | a :: as_, b :: bs => Json.beq a b && Json.beqList as_ bs
  | _, _ => false

def Json.beqObj : List (String × Json) → List (String × Json) → Bool
  | [], [] => true
  | (ka, va) :: as_, (kb, vb) :: bs => ka == kb && Json.beq va vb && Json.beqObj as_ bs
  | _, _ => false

end

mutual

theorem Json.beq_iff : ∀ a b : Json, Json.beq a b = true ↔ a = b
  | .null, b => by cases b <;> simp [Json.beq]
  | .boolean a, b => by cases b <;> simp [Json.beq]
  | .number a, b => by cases b <;> simp [Json.beq]
  | .string a, b => by cases b <;> simp [Json.beq]
  | .array a, b => by
    cases b <;> simp [Json.beq]
    exact Json.beqList_iff a _
  | .object a, b => by
    cases b <;> simp [Json.beq]
    exact Json.beqObj_iff a _

theorem Json.beqList_iff : ∀ a b : List Json, Json.beqList a b = true ↔ a = b
  | [], b => by cases b <;> simp [Json.beqList]
  | x :: xs, b => by
    cases b with
    | nil => simp [Json.beqList]
    | cons y ys =>
      simp [Json.beqList, Json.beq_iff x y, Json.beqList_iff xs ys]

theorem Json.beqObj_iff :
    ∀ a b : List (String × Json), Json.beqObj a b = true ↔ a = b
  | [], b => by cases b <;> simp [Json.beqObj]
  | (k, v) :: xs, b => by
    cases b with
    | nil => simp [Json.beqObj]
    | cons y ys =>
      obtain ⟨k', v'⟩ := y
      simp [Json.beqObj, Json.beq_iff v v', Json.beqObj_iff xs ys, and_assoc]

end

instance : DecidableEq Json := fun a b =>
  decidable_of_iff (Json.beq a b = true) (Json.beq_iff a b)

/-!
Section: Data model

`src/src/direction.rs` is in the sources; the `syntax` module (keywords,
terms, containers, types), the `Nullable` type, `LangString` and the
processed-context type are external collaborators or absent source files and
are modelled from the spec where noted.
-/

/-- String direction (`src/src/direction.rs`). -/
inductive Direction where
  | ltr
  | rtl
deriving DecidableEq

/-- `Display`/`AsJson` rendering of a direction (`src/src/direction.rs`). -/
def Direction.toStr : Direction → String
  | .ltr => "ltr"
  | .rtl => "rtl"

/-- Modelled from the spec: the `Nullable` wrapper (tri-state values: unset is
an absent `Option`, explicit-null is `Nullable.null`, explicit-value is
`Nullable.val`); its source file is not under the provided sources. -/
inductive Nullable (α : Type) where
  | null
  | val (a : α)
deriving DecidableEq

/-- `Nullable::option`: explicit null becomes `none`. -/
def Nullable.option : Nullable α → Option α
  | .null => none
  | .val a => some a

/-- Modelled from the spec: the closed `Keyword` enumeration of the absent
`syntax` module (only the keywords the compaction core names). -/
inductive Keyword where
  | id | typ | value | language | direction | index | list | set | graph
  | included | reverse | context | json | none_ | nest | vocab | base
deriving DecidableEq

/-- Keyword spelling. -/
def Keyword.toStr : Keyword → String
  | .id => "@id"
  | .typ => "@type"
  | .value => "@value"
  | .language => "@language"
  | .direction => "@direction"
  | .index => "@index"
  | .list => "@list"
  | .set => "@set"
  | .graph => "@graph"
  | .included => "@included"
  | .reverse => "@reverse"
  | .context => "@context"
  | .json => "@json"
  | .none_ => "@none"
  | .nest => "@nest"
  | .vocab => "@vocab"
  | .base => "@base"

/-- Modelled from the spec: a `Term` is a keyword or an absolute IRI
(blank-node identifiers are IRIs beginning with `_:`); the `syntax` module is
absent from the sources.  Identifiers (`T : Id`) are instantiated with
`String`. -/
inductive Term where
  | keyword (k : Keyword)
  | iri (s : String)
deriving DecidableEq

/-- Verbatim spelling of a term. -/
def Term.toStr : Term → String
  | .keyword k => k.toStr
  | .iri s => s

/-- Modelled from the spec: container flags (`syntax::ContainerType` is
absent from the sources). -/
inductive ContainerType where
  | list | set | index | language | id | typ | graph
deriving DecidableEq

/-- Modelled from the spec: a `Container` is a set over the seven container
flags (`syntax::Container` is absent from the sources); represented
canonically by one Boolean per flag. -/
structure Container where
  list : Bool
  set : Bool
  index : Bool
  language : Bool
  id : Bool
  typ : Bool
  graph : Bool
deriving DecidableEq

/-- The empty container (`Container::None` / `Container::new()`). -/
def Container.none : Container :=
  ⟨false, false, false, false, false, false, false⟩

/-- Container membership test (`Container::contains`). -/
def Container.contains (c : Container) : ContainerType → Bool
  | .list => c.list
  | .set => c.set
  | .index => c.index
  | .language => c.language
  | .id => c.id
  | .typ => c.typ
  | .graph => c.graph

/-- Modelled from the spec: a type reference is an IRI or one of the keywords
`@id`, `@vocab`, `@json`, `@none` (`syntax::Type` is absent from the
sources). -/
inductive TypeRef where
  | ref (iri : String)
  | tid
  | tvocab
  | tjson
  | tnone
deriving DecidableEq

/-- Modelled from the spec: a language-tagged string — text with an optional
language tag and an optional direction (`LangString`'s source file is absent
from the sources). -/
structure LangString where
  data : String
  language : Option String
  direction : Option Direction
deriving DecidableEq

/-- Literal value (`src/src/object/value.rs`). -/
inductive Literal where
  | null
  | boolean (b : Bool)
  | number (n : Int)
  | string (s : String)
deriving DecidableEq

/-- Value object (`src/src/object/value.rs`), with `T = String`. -/
inductive Value where
  | literal (lit : Literal) (ty : Option String)
  | langString (ls : LangString)
  | json (j : Json)
deriving DecidableEq

/-- A term definition (`src/src/context/definition.rs`).  The source fields
`prefix` and `protected` are renamed `prefix_flag` and `protected_flag`
(both words are reserved here). -/
structure TermDefinition where
  value : Option Term
  prefix_flag : Bool
  protected_flag : Bool
  reverse_property : Bool
  base_url : Option String
  context : Option Json
  container : Container
  direction : Option (Nullable Direction)
  index : Option String
  language : Option (Nullable String)
  nest : Option String
  typ : Option TypeRef

/-- The `PartialEq` implementation of `TermDefinition`
(`src/src/context/definition.rs`, lines 79-96): field-wise comparison that
deliberately skips the `protected` flag. -/
def TermDefinition.eq (a b : TermDefinition) : Bool :=
  a.prefix_flag == b.prefix_flag &&
  a.reverse_property == b.reverse_property &&
  a.language == b.language &&
  a.direction == b.direction &&
  a.nest == b.nest &&
  a.index == b.index &&
  a.container == b.container &&
  a.base_url == b.base_url &&
  a.value == b.value &&
  a.typ == b.typ &&
  a.context == b.context

/-- Modelled from the spec: a processed active context (the `Context` trait
and its implementation are external collaborators): term definitions,
defaults, and the optional previous context. -/
inductive Context where
  | mk (definitions : List (String × TermDefinition))
      (base_iri : Option String)
      (vocabulary : Option Term)
      (default_language : Option String)
      (default_base_direction : Option Direction)
      (previous : Option Context)

/-- Forward lookup, `Context::get`. -/
def Context.get : Context → String → Option TermDefinition
  | .mk defs _ _ _ _ _, term =>
    match defs.find? (fun e => e.1 = term) with
    | some e => some e.2
    | none => none

/-- `Context::default_language`. -/
def Context.default_language : Context → Option String
  | .mk _ _ _ l _ _ => l

/-- `Context::default_base_direction`. -/
def Context.default_base_direction : Context → Option Direction
  | .mk _ _ _ _ d _ => d

/-- `Context::previous_context`. -/
def Context.previous_context : Context → Option Context
  | .mk _ _ _ _ _ p => p

/-- Processing profile selector (`ProcessingMode`; its source file is absent
from the sources, modelled from the spec as a two-profile enumeration). -/
inductive ProcessingMode where
  | json_ld_1_0
  | json_ld_1_1
deriving DecidableEq

/-- Compaction options (`src/src/compaction/mod.rs`, lines 51-57). -/
structure Options where
  processing_mode : ProcessingMode
  compact_to_relative : Bool
  compact_arrays : Bool
  ordered : Bool

/-- `Options::default` (`src/src/compaction/mod.rs`, lines 77-86). -/
def Options.default : Options :=
  ⟨ProcessingMode.json_ld_1_1, true, true, false⟩

/-- Whether the active property's term definition in `ctx` has the container
flag `t` (the lookup pattern of `src/src/compaction/mod.rs`, lines 155-165
and 249-253). -/
def property_container_contains (ctx : Context) (active_property : Option String)
    (t : ContainerType) : Bool :=
  match active_property with
  | some ap =>
    match ctx.get ap with
    | some apd => apd.container.contains t
    | none => false
  | none => false

/-- The previous-context restoration performed when entering a list object
(`src/src/compaction/mod.rs`, lines 124-130): a term-scoped context does not
propagate. -/
def restore_previous_context (ctx : Context) : Context :=
  match ctx.previous_context with
  | some previous_context => previous_context
  | none => ctx

/-- The term-scoped step of the list branch (`src/src/compaction/mod.rs`,
lines 132-145): the active property's definition is looked up in the
*type-scoped* context; when it carries a local context the latter is
processed (with override) into the new active context; the second component
records whether that definition's container contains `List`. -/
def list_scoped_step (processLocal : Context → Json → Option String → Context)
    (active_context type_scoped_context : Context)
    (active_property : Option String) : Context × Bool :=
  match active_property with
  | some ap =>
    match type_scoped_context.get ap with
    | some apd =>
      (match apd.context with
        | some lc => processLocal active_context lc apd.base_url
        | none => active_context,
        apd.container.contains ContainerType.list)
    | none => (active_context, false)
  | none => (active_context, false)

/-- The active context used by `compact_indexed_value_with`: the property's
local context (processed with override) when its definition carries one. -/
def value_active_context (processLocal : Context → Json → Option String → Context)
    (active_context : Context) (active_property : Option String) : Context :=
  match active_property with
  | some ap =>
    match active_context.get ap with
    | some apd =>
      match apd.context with
      | some lc => processLocal active_context lc apd.base_url
      | none => active_context
    | none => active_context
  | none => active_context

/-- The effective language of a property: the term definition's language
mapping when set (explicit null meaning "no language"), else the context
default. -/
def effective_language (ctx : Context) (active_property : Option String) :
    Option String :=
  match (match active_property with
          | some ap => ctx.get ap
          | none => none) with
  | some d =>
    match d.language with
    | some lang => lang.option
    | none => ctx.default_language
  | none => ctx.default_language

/-- The effective direction of a property: the term definition's direction
mapping when set (explicit null meaning "no direction"), else the context
default. -/
def effective_direction (ctx : Context) (active_property : Option String) :
    Option Direction :=
  match (match active_property with
          | some ap => ctx.get ap
          | none => none) with
  | some d =>
    match d.direction with
    | some dir => dir.option
    | none => ctx.default_base_direction
  | none => ctx.default_base_direction

/-- The container mapping of the active property (empty when the property is
absent or undefined). -/
def effective_container (ctx : Context) (active_property : Option String) :
    Container :=
  match (match active_property with
          | some ap => ctx.get ap
          | none => none) with
  | some d => d.container
  | none => Container.none

/-- The type mapping of the active property (`None` when the property is
absent or undefined). -/
def effective_type_mapping (ctx : Context) (active_property : Option String) :
    Option TypeRef :=
  match (match active_property with
          | some ap => ctx.get ap
          | none => none) with
  | some d => d.typ
  | none => none

/-!
Section: Value compaction (src/src/compaction/value.rs)

Two external collaborators appear as function parameters throughout the
compaction embedding:
- `ciri` stands for `compact_iri` (`src/src/compaction/iri.rs` is absent from
  the sources); it returns the compact spelling of a term or keyword;
- `processLocal` stands for `Local::process_with` with override (the context
  processor is an external collaborator), taking the current context, the
  unprocessed local context and the definition's base URL.
-/

/-- `compact_indexed_value_with` (`src/src/compaction/value.rs`, lines
31-188). -/
def compact_indexed_value_with (ciri : Context → Term → String)
    (processLocal : Context → Json → Option String → Context)
    (value : Value) (index : Option String) (active_context : Context)
    (active_property : Option String) (options : Options) : Json :=
  -- If the term definition for active property in active context has a local
  -- context, process it (with override) and make it the active context.
  let active_context :=
    value_active_context processLocal active_context active_property
  let language := effective_language active_context active_property
  let direction := effective_direction active_context active_property
  let type_mapping : Option TypeRef :=
    effective_type_mapping active_context active_property
  let container_mapping := effective_container active_context active_property
  let remove_index :=
    (index.isSome && container_mapping.contains ContainerType.index) || index.isNone
  -- Common tail: attach the compacted `@index` entry when the index is kept,
  -- then wrap the accumulated entries as a JSON object.
  let finish : Obj → Json := fun result =>
    let result :=
      if !remove_index then
        match index with
        | some idx =>
          Obj.insert result (ciri active_context (Term.keyword Keyword.index))
            (Json.string idx)
        | none => result
      else result
    Json.object result
  match value with
  | Value.literal lit ty =>
    if (ty.map TypeRef.ref == type_mapping) && remove_index then
      match lit with
      | Literal.null => Json.null
      | Literal.boolean b => Json.boolean b
      | Literal.number n => Json.number n
      | Literal.string s =>
        if ty.isSome || (language.isNone && direction.isNone) then
          Json.string s
        else
          finish (Obj.insert [] (ciri active_context (Term.keyword Keyword.value))
            (Json.string s))
    else
      let result := Obj.insert []
        (ciri active_context (Term.keyword Keyword.value))
        (match lit with
          | Literal.null => Json.null
          | Literal.boolean b => Json.boolean b
          | Literal.number n => Json.number n
          | Literal.string s => Json.string s)
      let result :=
        match ty with
        | some t =>
          Obj.insert result (ciri active_context (Term.keyword Keyword.typ))
            (Json.string (ciri active_context (Term.iri t)))
        | none => result
      finish result
  | Value.langString ls =>
    if remove_index
        && (ls.language.isNone || language == ls.language)
        && (ls.direction.isNone || direction == ls.direction) then
      Json.string ls.data
    else
      let result := Obj.insert []
        (ciri active_context (Term.keyword Keyword.value)) (Json.string ls.data)
      let result :=
        match ls.language with
        | some l =>
          Obj.insert result (ciri active_context (Term.keyword Keyword.language))
            (Json.string l)
        | none => result
      let result :=
        match ls.direction with
        | some d =>
          Obj.insert result (ciri active_context (Term.keyword Keyword.direction))
            (Json.string d.toStr)
        | none => result
      finish result
  | Value.json j =>
    if (type_mapping == some TypeRef.tjson) && remove_index then
      j
    else
      let result := Obj.insert []
        (ciri active_context (Term.keyword Keyword.value)) j
      let result := Obj.insert result
        (ciri active_context (Term.keyword Keyword.typ))
        (Json.string (ciri active_context (Term.keyword Keyword.json)))
      finish result

/-!
Section: Objects (src/src/object/mod.rs, src/src/object/node.rs)

`Indexed<T>` pairs a value with an optional `@index`.  Hash sets and hash
maps of the sources are modelled by lists (the list order standing for the
iteration order the Rust program observes).
-/

mutual

/-- `Object` (`src/src/object/mod.rs`): value, node object or list. -/
inductive Object where
  | value (v : Value)
  | node (n : Node)
  | list (items : List IndexedObject)

/-- `Node` (`src/src/object/node.rs`), with `T = String`; its hash
maps/sets become association lists. -/
inductive Node where
  | mk (id : Option String)
      (types : List String)
      (graph : Option (List IndexedObject))
      (included : Option (List IndexedNode))
      (properties : List (String × List IndexedObject))
      (reverse_properties : List (String × List IndexedNode))

/-- `Indexed<Object>`. -/
inductive IndexedObject where
  | mk (inner : Object) (index : Option String)

/-- `Indexed<Node>`. -/
inductive IndexedNode where
  | mk (inner : Node) (index : Option String)

end

/-- `Indexed::inner`. -/
def IndexedObject.inner : IndexedObject → Object
  | .mk o _ => o

/-- `Indexed::index`. -/
def IndexedObject.index : IndexedObject → Option String
  | .mk _ i => i

/-!
Section: Compaction driver (src/src/compaction/mod.rs)

The node compactor (`src/src/compaction/node.rs` is absent from the sources)
is a further function parameter `compactNode`.  `compact_property`
(`src/src/compaction/property.rs` is absent) is modelled from the spec below.
-/

mutual

/-- `CompactIndexed::compact_indexed_with` for objects
(`src/src/compaction/mod.rs`, lines 113-181): dispatch on the object variant;
the list branch restores the previous context, consults the *type-scoped*
context for the active property definition, enters its local context, and
either compacts the sequence bare (`List` container) or emits an `@list`
object with an optional `@index` entry. -/
def compact_indexed_with (ciri : Context → Term → String)
    (processLocal : Context → Json → Option String → Context)
    (compactNode : Node → Option String → Context → Context → Option String →
      Options → Json)
    (o : Object) (index : Option String) (active_context : Context)
    (type_scoped_context : Context) (active_property : Option String)
    (options : Options) : Json :=
  match o with
  | Object.value v =>
    compact_indexed_value_with ciri processLocal v index active_context
      active_property options
  | Object.node n =>
    compactNode n index active_context type_scoped_context active_property
      options
  | Object.list list =>
    -- If active context has a previous context, the active context is not
    -- propagated (the scope of a term-scoped context does not apply when
    -- processing new node objects).
    let active_context := restore_previous_context active_context
    -- If the term definition for active property — looked up in the
    -- type-scoped context, see the FIXME in the source — has a local
    -- context, process it with override.
    let step := list_scoped_step processLocal active_context
      type_scoped_context active_property
    let active_context := step.1
    let list_container := step.2
    if list_container then
      compact_collection_with ciri processLocal compactNode list
        active_context active_context active_property options
    else
      let result : Obj := []
      let result := compact_property ciri processLocal compactNode result
        (Term.keyword Keyword.list) list active_context false options
      -- If expanded property is @index and active property has a container
      -- mapping in active context that includes @index, drop the @index
      -- entry; otherwise add it under the compacted `@index` key.
      let result :=
        match index with
        | some idx =>
          let index_container :=
            property_container_contains active_context active_property
              ContainerType.index
          if index_container then result
          else
            Obj.insert result
              (ciri active_context (Term.keyword Keyword.index))
              (Json.string idx)
        | none => result
      Json.object result
termination_by (sizeOf o, 3)

/-- The per-item loop of `compact_collection_with`
(`src/src/compaction/mod.rs`, lines 239-246): compact each item and drop the
`null` results. -/
def compact_items (ciri : Context → Term → String)
    (processLocal : Context → Json → Option String → Context)
    (compactNode : Node → Option String → Context → Context → Option String →
      Options → Json)
    (items : List IndexedObject) (active_context : Context)
    (type_scoped_context : Context) (active_property : Option String)
    (options : Options) : List Json :=
  match items with
  | [] => []
  | item :: rest =>
    let compacted_item :=
      match item with
      | IndexedObject.mk inner idx =>
        compact_indexed_with ciri processLocal compactNode inner idx
          active_context type_scoped_context active_property options
    let rest' := compact_items ciri processLocal compactNode rest
      active_context type_scoped_context active_property options
    if compacted_item.is_null then rest' else compacted_item :: rest'
termination_by (sizeOf items, 1)

/-- `compact_collection_with` (`src/src/compaction/mod.rs`, lines 237-265):
compact the items, then either keep the array or unwrap its single element.
The `Compact` implementation for `HashSet<Indexed<Object>>` (lines 267-271)
delegates here with the set's iteration sequence as `items`. -/
def compact_collection_with (ciri : Context → Term → String)
    (processLocal : Context → Json → Option String → Context)
    (compactNode : Node → Option String → Context → Context → Option String →
      Options → Json)
    (items : List IndexedObject) (active_context : Context)
    (type_scoped_context : Context) (active_property : Option String)
    (options : Options) : Json :=
  let result := compact_items ciri processLocal compactNode items
    active_context type_scoped_context active_property options
  let list_or_set :=
    property_container_contains active_context active_property ContainerType.list
      || property_container_contains active_context active_property ContainerType.set
  if result.isEmpty
      || result.length > 1
      || !options.compact_arrays
      || active_property == some "@graph" || active_property == some "@set"
      || list_or_set then
    Json.array result
  else
    result.headD Json.null
termination_by (sizeOf items, 2)

/-- Modelled from the spec: `compact_property`
(`src/src/compaction/property.rs` is absent from the sources).  Per §4.4 of
the specification, the property compactor merges into the result object one
entry whose key IRI-compacts the property and whose value is the
container-materialized compaction of the values; for the `@list` property
used by the list branch, the value is the compaction of the item sequence
under the compacted term. -/
def compact_property (ciri : Context → Term → String)
    (processLocal : Context → Json → Option String → Context)
    (compactNode : Node → Option String → Context → Context → Option String →
      Options → Json)
    (result : Obj) (expanded_property : Term) (list : List IndexedObject)
    (active_context : Context) (inside_reverse : Bool) (options : Options) :
    Obj :=
  let key := ciri active_context expanded_property
  let value := compact_collection_with ciri processLocal compactNode list
    active_context active_context (some key) options
  Obj.insert result key value
termination_by (sizeOf list, 3)

end

/-!
Section: Root assembly of `Document::compact_with` (src/src/document.rs, lines 113-159)

The expansion of the input document and the recursive compaction are the
surrounding computation; the embedding below covers the assembly of the root
object from the compacted JSON (`compacted`) and the JSON form of the
supplied context (`json_context`).
-/

/-- The root object assembled from the compacted JSON
(`src/src/document.rs`, lines 132-151): a top-level array is wrapped under
the IRI-compacted `@graph` key unless empty; `none` models the
`panic!("invalid compact document")` arm. -/
def document_root_map (ciri : Context → Term → String) (context : Context)
    (compacted : Json) : Option Obj :=
  match compacted with
  | Json.array items =>
    some (if items.isEmpty then ([] : Obj)
      else
        Obj.insert [] (ciri context (Term.keyword Keyword.graph))
          (Json.array items))
  | Json.object map => some map
  | _ => none

/-- The final step of `Document::compact_with` (`src/src/document.rs`, lines
153-157): attach the supplied context under the `"@context"` key when both
the root object and the JSON form of the context are non-empty (and the
latter is non-null). -/
def document_compact_assemble (ciri : Context → Term → String)
    (context : Context) (compacted : Json) (json_context : Json) :
    Option Json :=
  match document_root_map ciri context compacted with
  | none => none
  | some map =>
    let map :=
      if !map.isEmpty && !json_context.is_null && !json_context.is_empty then
        Obj.insert map "@context" json_context
      else map
    some (Json.object map)

/-!
Section: Helper notions used by the theorems
-/

mutual

/-- The sequence of scalars that `add_value` appends for a given inserted
value: a non-array value stands for itself, an array is spliced recursively
(each element re-enters `add_value`, which splits nested arrays again). -/
def Json.flattenValue : Json → List Json
  | .array vs => Json.flattenList vs
  | v => [v]

def Json.flattenList : List Json → List Json
  | [] => []
  | v :: rest => Json.flattenValue v ++ Json.flattenList rest

end

theorem Obj.insert_get_same (map : Obj) (key : String) (v : Json)
    (h : map.get key = some v) : map.insert key v = map := by
  induction map with
  | nil => simp [Obj.get] at h
  | cons hd tl ih =>
    obtain ⟨k₀, v₀⟩ := hd
    by_cases h₀ : k₀ = key
    · subst h₀
      simp [Obj.get] at h
      simp [Obj.insert, h]
    · simp [Obj.get, h₀] at h
      simp [Obj.insert, h₀, ih h]

theorem Obj.insert_insert (map : Obj) (key : String) (v w : Json) :
    (map.insert key v).insert key w = map.insert key w := by
  induction map with
  | nil => simp [Obj.insert]
  | cons hd tl ih =>
    obtain ⟨k₀, v₀⟩ := hd
    by_cases h₀ : k₀ = key <;> simp [Obj.insert, h₀, ih]

/-!
Section: Behaviour of `add_value` (claims C4 and C10)
-/

theorem addValuePhase1_of_array (map : Obj) (key : String) (asArray : Bool)
    (A : List Json) (h : map.get key = some (Json.array A)) :
    addValuePhase1 map key asArray = map := by
  unfold addValuePhase1
  simp [h]

theorem addValuePhase1_of_scalar (map : Obj) (key : String) (asArray : Bool)
    (x : Json) (h : map.get key = some x) (hx : ∀ xs, x ≠ Json.array xs) :
    addValuePhase1 map key asArray = map.insert key (Json.array [x]) := by
  unfold addValuePhase1
  cases x <;> simp [h]
  exact absurd rfl (hx _)

theorem addValuePhase1_of_none (map : Obj) (key : String) (asArray : Bool)
    (h : map.get key = none) :
    addValuePhase1 map key asArray =
      (if asArray then map.insert key (Json.array []) else map) := by
  unfold addValuePhase1
  simp [h]

theorem addValuePhase1_frame (map : Obj) (key k' : String) (asArray : Bool)
    (h : k' ≠ key) : (addValuePhase1 map key asArray).get k' = map.get k' := by
  unfold addValuePhase1
  rcases hm : map.get key with _ | v
  · by_cases hb : asArray <;> simp [hb, Obj.get_insert_ne _ _ _ _ h]
  · cases v <;> simp [Obj.get_insert_ne _ _ _ _ h]

/-- After the first match of `add_value`, the entry under `key` is an array
or absent. -/
theorem addValuePhase1_get (map : Obj) (key : String) (asArray : Bool) :
    (addValuePhase1 map key asArray).get key = none ∨
    ∃ A, (addValuePhase1 map key asArray).get key = some (Json.array A) := by
  rcases hm : map.get key with _ | v
  · rw [addValuePhase1_of_none map key asArray hm]
    by_cases hb : asArray
    · exact Or.inr ⟨[], by simp [hb, Obj.get_insert_self]⟩
    · exact Or.inl (by simp [hb, hm])
  · cases v with
    | array A => exact Or.inr ⟨A, by rw [addValuePhase1_of_array map key asArray A hm]; exact hm⟩
    | null =>
      exact Or.inr ⟨[Json.null],
        by rw [addValuePhase1_of_scalar map key asArray _ hm (by intro xs hxs; cases hxs)]
           exact Obj.get_insert_self _ _ _⟩
    | boolean b =>
      exact Or.inr ⟨[Json.boolean b],
        by rw [addValuePhase1_of_scalar map key asArray _ hm (by intro xs hxs; cases hxs)]
           exact Obj.get_insert_self _ _ _⟩
    | number n =>
      exact Or.inr ⟨[Json.number n],
        by rw [addValuePhase1_of_scalar map key asArray _ hm (by intro xs hxs; cases hxs)]
           exact Obj.get_insert_self _ _ _⟩
    | string s =>
      exact Or.inr ⟨[Json.string s],
        by rw [addValuePhase1_of_scalar map key asArray _ hm (by intro xs hxs; cases hxs)]
           exact Obj.get_insert_self _ _ _⟩
    | object o =>
      exact Or.inr ⟨[Json.object o],
        by rw [addValuePhase1_of_scalar map key asArray _ hm (by intro xs hxs; cases hxs)]
           exact Obj.get_insert_self _ _ _⟩

mutual

/-- When the entry under `key` is already an array, `add_value` appends the
(recursively spliced) inserted value at its end. -/
theorem add_value_of_array : ∀ (value : Json) (map : Obj) (key : String)
    (asArray : Bool) (A : List Json), map.get key = some (Json.array A) →
    add_value map key value asArray =
      some (map.insert key (Json.array (A ++ Json.flattenValue value)))
  | Json.array vs, map, key, b, A, h => by
    unfold add_value
    rw [addValuePhase1_of_array map key b A h]
    simpa [Json.flattenValue] using addValueAll_of_array vs map key A h
  | Json.null, map, key, b, A, h => by
    unfold add_value
    rw [addValuePhase1_of_array map key b A h]
    simp [h, Json.flattenValue]
  | Json.boolean x, map, key, b, A, h => by
    unfold add_value
    rw [addValuePhase1_of_array map key b A h]
    simp [h, Json.flattenValue]
  | Json.number x, map, key, b, A, h => by
    unfold add_value
    rw [addValuePhase1_of_array map key b A h]
    simp [h, Json.flattenValue]
  | Json.string x, map, key, b, A, h => by
    unfold add_value
    rw [addValuePhase1_of_array map key b A h]
    simp [h, Json.flattenValue]
  | Json.object x, map, key, b, A, h => by
    unfold add_value
    rw [addValuePhase1_of_array map key b A h]
    simp [h, Json.flattenValue]

theorem addValueAll_of_array : ∀ (vs : List Json) (map : Obj) (key : String)
    (A : List Json), map.get key = some (Json.array A) →
    addValueAll map key vs =
      some (map.insert key (Json.array (A ++ Json.flattenList vs)))
  | [], map, key, A, h => by
    unfold addValueAll
    simp [Json.flattenList, Obj.insert_get_same map key _ h]
  | v :: rest, map, key, A, h => by
    unfold addValueAll
    rw [add_value_of_array v map key false A h]
    show addValueAll (map.insert key (Json.array (A ++ Json.flattenValue v))) key rest = _
    rw [addValueAll_of_array rest (map.insert key (Json.array (A ++ Json.flattenValue v)))
      key (A ++ Json.flattenValue v) (Obj.get_insert_self _ _ _)]
    simp [Obj.insert_insert, Json.flattenList, List.append_assoc]

end

mutual

/-- `add_value` always succeeds (the `unreachable!()` arm is dead) and
leaves every other key of the map unchanged. -/
theorem add_value_some_frame : ∀ (value : Json) (map : Obj) (key : String)
    (asArray : Bool), ∃ m', add_value map key value asArray = some m' ∧
      ∀ k', k' ≠ key → m'.get k' = map.get k'
  | Json.array vs, map, key, b => by
    unfold add_value
    obtain ⟨m', e, f⟩ := addValueAll_some_frame vs (addValuePhase1 map key b) key
    exact ⟨m', e, fun k' hk => (f k' hk).trans (addValuePhase1_frame map key k' b hk)⟩
  | Json.null, map, key, b => by
    unfold add_value
    rcases addValuePhase1_get map key b with h | ⟨A, h⟩ <;>
      [refine ⟨(addValuePhase1 map key b).insert key Json.null, by simp [h], ?_⟩;
       refine ⟨(addValuePhase1 map key b).insert key (Json.array (A ++ [Json.null])),
        by simp [h], ?_⟩] <;>
      exact fun k' hk => by
        rw [Obj.get_insert_ne _ _ _ _ hk, addValuePhase1_frame map key k' b hk]
  | Json.boolean x, map, key, b => by
    unfold add_value
    rcases addValuePhase1_get map key b with h | ⟨A, h⟩ <;>
      [refine ⟨(addValuePhase1 map key b).insert key (Json.boolean x), by simp [h], ?_⟩;
       refine ⟨(addValuePhase1 map key b).insert key (Json.array (A ++ [Json.boolean x])),
        by simp [h], ?_⟩] <;>
      exact fun k' hk => by
        rw [Obj.get_insert_ne _ _ _ _ hk, addValuePhase1_frame map key k' b hk]
  | Json.number x, map, key, b => by
    unfold add_value
    rcases addValuePhase1_get map key b with h | ⟨A, h⟩ <;>
      [refine ⟨(addValuePhase1 map key b).insert key (Json.number x), by simp [h], ?_⟩;
       refine ⟨(addValuePhase1 map key b).insert key (Json.array (A ++ [Json.number x])),
        by simp [h], ?_⟩] <;>
      exact fun k' hk => by
        rw [Obj.get_insert_ne _ _ _ _ hk, addValuePhase1_frame map key k' b hk]
  | Json.string x, map, key, b => by
    unfold add_value
    rcases addValuePhase1_get map key b with h | ⟨A, h⟩ <;>
      [refine ⟨(addValuePhase1 map key b).insert key (Json.string x), by simp [h], ?_⟩;
       refine ⟨(addValuePhase1 map key b).insert key (Json.array (A ++ [Json.string x])),
        by simp [h], ?_⟩] <;>
      exact fun k' hk => by
        rw [Obj.get_insert_ne _ _ _ _ hk, addValuePhase1_frame map key k' b hk]
  | Json.object x, map, key, b => by
    unfold add_value
    rcases addValuePhase1_get map key b with h | ⟨A, h⟩ <;>
      [refine ⟨(addValuePhase1 map key b).insert key (Json.object x), by simp [h], ?_⟩;
       refine ⟨(addValuePhase1 map key b).insert key (Json.array (A ++ [Json.object x])),
        by simp [h], ?_⟩] <;>
      exact fun k' hk => by
        rw [Obj.get_insert_ne _ _ _ _ hk, addValuePhase1_frame map key k' b hk]

theorem addValueAll_some_frame : ∀ (vs : List Json) (map : Obj) (key : String),
    ∃ m', addValueAll map key vs = some m' ∧
      ∀ k', k' ≠ key → m'.get k' = map.get k'
  | [], map, key => ⟨map, by unfold addValueAll; rfl, fun _ _ => rfl⟩
  | v :: rest, map, key => by
    obtain ⟨m₁, e₁, f₁⟩ := add_value_some_frame v map key false
    obtain ⟨m', e₂, f₂⟩ := addValueAll_some_frame rest m₁ key
    exact ⟨m', by unfold addValueAll; rw [e₁]; exact e₂,
      fun k' hk => (f₂ k' hk).trans (f₁ k' hk)⟩

end

/-- When the entry is absent and the array shape is requested, the entry is
seeded with `[]` and the (recursively spliced) value is appended. -/
theorem add_value_of_none_true (value : Json) (map : Obj) (key : String)
    (h : map.get key = none) :
    add_value map key value true =
      some (map.insert key (Json.array (Json.flattenValue value))) := by
  cases value with
  | array vs =>
    have hp : addValuePhase1 map key true = map.insert key (Json.array []) := by
      rw [addValuePhase1_of_none map key true h]
      simp
    unfold add_value
    rw [hp]
    show addValueAll (map.insert key (Json.array [])) key vs = _
    rw [addValueAll_of_array vs (map.insert key (Json.array [])) key []
      (Obj.get_insert_self _ _ _)]
    simp [Obj.insert_insert, Json.flattenValue]
  | null =>
    unfold add_value
    rw [addValuePhase1_of_none map key true h]
    simp [Obj.get_insert_self, Obj.insert_insert, Json.flattenValue]
  | boolean b =>
    unfold add_value
    rw [addValuePhase1_of_none map key true h]
    simp [Obj.get_insert_self, Obj.insert_insert, Json.flattenValue]
  | number n =>
    unfold add_value
    rw [addValuePhase1_of_none map key true h]
    simp [Obj.get_insert_self, Obj.insert_insert, Json.flattenValue]
  | string s =>
    unfold add_value
    rw [addValuePhase1_of_none map key true h]
    simp [Obj.get_insert_self, Obj.insert_insert, Json.flattenValue]
  | object o =>
    unfold add_value
    rw [addValuePhase1_of_none map key true h]
    simp [Obj.get_insert_self, Obj.insert_insert, Json.flattenValue]

/-- When the entry is absent, no array shape is requested and the inserted
value is not an array, the entry becomes the scalar value itself. -/
theorem add_value_of_none_false_scalar (value : Json) (map : Obj)
    (key : String) (h : map.get key = none)
    (hv : ∀ vs, value ≠ Json.array vs) :
    add_value map key value false = some (map.insert key value) := by
  cases value with
  | array vs => exact absurd rfl (hv vs)
  | null =>
    unfold add_value
    rw [addValuePhase1_of_none map key false h]
    simp [h]
  | boolean b =>
    unfold add_value
    rw [addValuePhase1_of_none map key false h]
    simp [h]
  | number n =>
    unfold add_value
    rw [addValuePhase1_of_none map key false h]
    simp [h]
  | string s =>
    unfold add_value
    rw [addValuePhase1_of_none map key false h]
    simp [h]
  | object o =>
    unfold add_value
    rw [addValuePhase1_of_none map key false h]
    simp [h]

/-- An existing non-array entry is promoted to a singleton array and the
(recursively spliced) value is appended behind it. -/
theorem add_value_of_scalar (value : Json) (map : Obj) (key : String)
    (asArray : Bool) (x : Json) (h : map.get key = some x)
    (hx : ∀ xs, x ≠ Json.array xs) :
    add_value map key value asArray =
      some (map.insert key (Json.array (x :: Json.flattenValue value))) := by
  have hone : ([x] : List Json) ++ Json.flattenValue value = x :: Json.flattenValue value := rfl
  cases value with
  | array vs =>
    unfold add_value
    rw [addValuePhase1_of_scalar map key asArray x h hx]
    show addValueAll (map.insert key (Json.array [x])) key vs = _
    rw [addValueAll_of_array vs (map.insert key (Json.array [x])) key [x]
      (Obj.get_insert_self _ _ _)]
    simp [Obj.insert_insert, Json.flattenValue]
  | null =>
    unfold add_value
    rw [addValuePhase1_of_scalar map key asArray x h hx]
    simp [Obj.get_insert_self, Obj.insert_insert, Json.flattenValue]
  | boolean b =>
    unfold add_value
    rw [addValuePhase1_of_scalar map key asArray x h hx]
    simp [Obj.get_insert_self, Obj.insert_insert, Json.flattenValue]
  | number n =>
    unfold add_value
    rw [addValuePhase1_of_scalar map key asArray x h hx]
    simp [Obj.get_insert_self, Obj.insert_insert, Json.flattenValue]
  | string s =>
    unfold add_value
    rw [addValuePhase1_of_scalar map key asArray x h hx]
    simp [Obj.get_insert_self, Obj.insert_insert, Json.flattenValue]
  | object o =>
    unfold add_value
    rw [addValuePhase1_of_scalar map key asArray x h hx]
    simp [Obj.get_insert_self, Obj.insert_insert, Json.flattenValue]

/-- C10: in `add_value`, the `unreachable!()` arm of the second match is
dead: after the first match normalizes the entry under the key, a non-array
value always finds that entry an array or absent, so `add_value` succeeds
(never panics) on every map, key, value and `as_array` flag. -/
theorem add_value_unreachable_arm_is_dead (map : Obj) (key : String)
    (value : Json) (asArray : Bool) :
    ((addValuePhase1 map key asArray).get key = none ∨
      ∃ A, (addValuePhase1 map key asArray).get key = some (Json.array A)) ∧
    (add_value map key value asArray).isSome = true := by
  refine ⟨addValuePhase1_get map key asArray, ?_⟩
  obtain ⟨m', e, _⟩ := add_value_some_frame value map key asArray
  simp [e]

/-- C4 (counterexample): inserting the nested array `[[1]]` under an absent
key with `as_array = true` does not yield `[]` extended with the value's
elements (which would be `[[1]]`); `add_value` splices recursively and the
entry becomes `[1]`. -/
theorem add_value_claim_counterexample :
    add_value [] "k" (Json.array [Json.array [Json.number 1]]) true =
      some [("k", Json.array [Json.number 1])] ∧
    some [("k", Json.array [Json.number 1])] ≠
      some ([("k", Json.array [Json.array [Json.number 1]])] : Obj) := by
  constructor
  · rw [add_value_of_none_true (Json.array [Json.array [Json.number 1]]) [] "k"
      (show Obj.get [] "k" = none from rfl)]
    rfl
  · decide

/-- C4 (amended): `add_value(map, key, value, as_array)` always succeeds and
leaves every other key unchanged; writing `spliced(value)` for the recursive
flattening of `value` (a non-array value stands for itself, arrays are
spliced element-wise, recursively): an absent entry with `as_array = true`
becomes the array `spliced(value)`; an absent entry with `as_array = false`
and a non-array value becomes the scalar `value`; an existing non-array
entry `x` becomes `[x] ++ spliced(value)`; an existing array entry `xs`
becomes `xs ++ spliced(value)`. -/
theorem add_value_spec (map : Obj) (key : String) (value : Json)
    (asArray : Bool) :
    ∃ m', add_value map key value asArray = some m' ∧
      (∀ k', k' ≠ key → m'.get k' = map.get k') ∧
      (map.get key = none → asArray = true →
        m'.get key = some (Json.array (Json.flattenValue value))) ∧
      (map.get key = none → asArray = false → (∀ vs, value ≠ Json.array vs) →
        m'.get key = some value) ∧
      (∀ x, map.get key = some x → (∀ xs, x ≠ Json.array xs) →
        m'.get key = some (Json.array (x :: Json.flattenValue value))) ∧
      (∀ xs, map.get key = some (Json.array xs) →
        m'.get key = some (Json.array (xs ++ Json.flattenValue value))) := by
  rcases hm : map.get key with _ | x
  · cases asArray with
    | true =>
      refine ⟨map.insert key (Json.array (Json.flattenValue value)),
        add_value_of_none_true value map key hm, ?_, ?_, ?_, ?_, ?_⟩
      · exact fun k' hk => Obj.get_insert_ne _ _ _ _ hk
      · exact fun _ _ => Obj.get_insert_self _ _ _
      · intro _ hft _
        cases hft
      · intro x h1 _
        exact Option.noConfusion h1
      · intro xs h1
        exact Option.noConfusion h1
    | false =>
      by_cases hva : ∃ vs, value = Json.array vs
      · obtain ⟨vs, rfl⟩ := hva
        obtain ⟨m', e, f⟩ := add_value_some_frame (Json.array vs) map key false
        refine ⟨m', e, f, ?_, ?_, ?_, ?_⟩
        · intro _ hft
          cases hft
        · exact fun _ _ h3 => absurd rfl (h3 vs)
        · intro x h1 _
          exact Option.noConfusion h1
        · intro xs h1
          exact Option.noConfusion h1
      · push_neg at hva
        refine ⟨map.insert key value,
          add_value_of_none_false_scalar value map key hm hva, ?_, ?_, ?_, ?_, ?_⟩
        · exact fun k' hk => Obj.get_insert_ne _ _ _ _ hk
        · intro _ hft
          cases hft
        · exact fun _ _ _ => Obj.get_insert_self _ _ _
        · intro x h1 _
          exact Option.noConfusion h1
        · intro xs h1
          exact Option.noConfusion h1
  · by_cases hxa : ∃ xs, x = Json.array xs
    · obtain ⟨xs, rfl⟩ := hxa
      refine ⟨map.insert key (Json.array (xs ++ Json.flattenValue value)),
        add_value_of_array value map key asArray xs hm, ?_, ?_, ?_, ?_, ?_⟩
      · exact fun k' hk => Obj.get_insert_ne _ _ _ _ hk
      · intro h1 _
        exact Option.noConfusion h1
      · intro h1 _ _
        exact Option.noConfusion h1
      · intro y h1 h2
        injection h1 with h1
        exact absurd h1.symm (h2 xs)
      · intro ys h1
        injection h1 with h1
        injection h1 with h1
        rw [h1]
        exact Obj.get_insert_self _ _ _
    · push_neg at hxa
      refine ⟨map.insert key (Json.array (x :: Json.flattenValue value)),
        add_value_of_scalar value map key asArray x hm hxa, ?_, ?_, ?_, ?_, ?_⟩
      · exact fun k' hk => Obj.get_insert_ne _ _ _ _ hk
      · intro h1 _
        exact Option.noConfusion h1
      · intro h1 _ _
        exact Option.noConfusion h1
      · intro y h1 _
        injection h1 with h1
        rw [h1]
        exact Obj.get_insert_self _ _ _
      · intro ys h1
        injection h1 with h1
        exact absurd h1 (hxa ys)

/-- Witness for C4: concrete instance, scalar insertion into an empty map. -/
theorem add_value_spec_witness :
    ∃ m', add_value [] "k" (Json.number 7) false = some m' ∧
      m'.get "k" = some (Json.number 7) := by
  obtain ⟨m', e, _, _, h4, _, _⟩ := add_value_spec [] "k" (Json.number 7) false
  exact ⟨m', e, h4 rfl rfl (fun vs h => by cases h)⟩

/-- C9: `TermDefinition` equality ignores the `protected` flag: two
definitions are `eq` exactly when they agree on every field other than
`protected_flag`; in particular definitions differing only in the protected
flag compare equal, and definitions differing in any listed field compare
unequal. -/
theorem term_definition_eq_ignores_protected (a b : TermDefinition) :
    TermDefinition.eq a b = true ↔
      (a.value = b.value ∧ a.prefix_flag = b.prefix_flag ∧
        a.reverse_property = b.reverse_property ∧ a.base_url = b.base_url ∧
        a.context = b.context ∧ a.container = b.container ∧
        a.direction = b.direction ∧ a.index = b.index ∧
        a.language = b.language ∧ a.nest = b.nest ∧ a.typ = b.typ) := by
  unfold TermDefinition.eq
  simp only [Bool.and_eq_true, beq_iff_eq]
  tauto

/-!
Section: Value compaction: the LangString case (claim C3)
-/

/-- The condition under which a language-tagged string compacts to the bare
string: the index is removable and the string's language and direction are
absent or equal to the property's effective ones. -/
def langstring_bare (processLocal : Context → Json → Option String → Context)
    (ls : LangString) (index : Option String) (active_context : Context)
    (active_property : Option String) : Prop :=
  let ctx := value_active_context processLocal active_context active_property
  ((effective_container ctx active_property).contains ContainerType.index = true
      ∨ index = none) ∧
  (ls.language = none ∨ effective_language ctx active_property = ls.language) ∧
  (ls.direction = none ∨ effective_direction ctx active_property = ls.direction)

/-- C3: a `LangString` compacts to the bare JSON string of its text exactly
when `remove_index` holds (the property's container contains `Index`, or the
value carries no index) and the string's language and direction are each
absent or equal to the property's effective language and direction;
otherwise the result is an object containing the compacted `@value` entry
and, exactly when present on the string, the compacted `@language` and
`@direction` entries.  The keyword compactions are assumed pairwise
distinct. -/
theorem compact_value_langstring_spec
    (ciri : Context → Term → String)
    (processLocal : Context → Json → Option String → Context)
    (ls : LangString) (index : Option String) (active_context : Context)
    (active_property : Option String) (options : Options)
    (hvl : ∀ c, ciri c (Term.keyword Keyword.value) ≠ ciri c (Term.keyword Keyword.language))
    (hvd : ∀ c, ciri c (Term.keyword Keyword.value) ≠ ciri c (Term.keyword Keyword.direction))
    (hvi : ∀ c, ciri c (Term.keyword Keyword.value) ≠ ciri c (Term.keyword Keyword.index))
    (hld : ∀ c, ciri c (Term.keyword Keyword.language) ≠ ciri c (Term.keyword Keyword.direction))
    (hli : ∀ c, ciri c (Term.keyword Keyword.language) ≠ ciri c (Term.keyword Keyword.index))
    (hdi : ∀ c, ciri c (Term.keyword Keyword.direction) ≠ ciri c (Term.keyword Keyword.index)) :
    ((∃ s, compact_indexed_value_with ciri processLocal (Value.langString ls)
          index active_context active_property options = Json.string s) ↔
        langstring_bare processLocal ls index active_context active_property) ∧
    (langstring_bare processLocal ls index active_context active_property →
      compact_indexed_value_with ciri processLocal (Value.langString ls)
          index active_context active_property options = Json.string ls.data) ∧
    (¬ langstring_bare processLocal ls index active_context active_property →
      ∃ m, compact_indexed_value_with ciri processLocal (Value.langString ls)
            index active_context active_property options = Json.object m ∧
        Obj.get m (ciri (value_active_context processLocal active_context active_property)
            (Term.keyword Keyword.value)) = some (Json.string ls.data) ∧
        Obj.get m (ciri (value_active_context processLocal active_context active_property)
            (Term.keyword Keyword.language)) = Option.map Json.string ls.language ∧
        Obj.get m (ciri (value_active_context processLocal active_context active_property)
            (Term.keyword Keyword.direction)) =
          Option.map (fun d => Json.string d.toStr) ls.direction) := by
  set ctx := value_active_context processLocal active_context active_property with hctx
  have hcond :
      ((((index.isSome && (effective_container ctx active_property).contains ContainerType.index) || index.isNone)
          && (ls.language.isNone || (effective_language ctx active_property == ls.language))
          && (ls.direction.isNone || (effective_direction ctx active_property == ls.direction))) = true)
        ↔ langstring_bare processLocal ls index active_context active_property := by
    unfold langstring_bare
    rw [← hctx]
    cases index <;>
      simp [Bool.and_eq_true, Bool.or_eq_true, Option.isNone_iff_eq_none, and_assoc]
  by_cases hb :
      ((((index.isSome && (effective_container ctx active_property).contains ContainerType.index) || index.isNone)
          && (ls.language.isNone || (effective_language ctx active_property == ls.language))
          && (ls.direction.isNone || (effective_direction ctx active_property == ls.direction))) = true)
  · have h1 : compact_indexed_value_with ciri processLocal (Value.langString ls)
        index active_context active_property options = Json.string ls.data := by
      unfold compact_indexed_value_with
      simp only [← hctx]
      simp only [if_pos hb]
    exact ⟨iff_of_true ⟨ls.data, h1⟩ (hcond.mp hb), fun _ => h1,
      fun hn => absurd (hcond.mp hb) hn⟩
  · have hnb : ¬ langstring_bare processLocal ls index active_context active_property :=
      fun h => hb (hcond.mpr h)
    have hobj : ∃ m, compact_indexed_value_with ciri processLocal (Value.langString ls)
          index active_context active_property options = Json.object m ∧
        Obj.get m (ciri ctx (Term.keyword Keyword.value)) = some (Json.string ls.data) ∧
        Obj.get m (ciri ctx (Term.keyword Keyword.language)) = Option.map Json.string ls.language ∧
        Obj.get m (ciri ctx (Term.keyword Keyword.direction)) =
          Option.map (fun d => Json.string d.toStr) ls.direction := by
      unfold compact_indexed_value_with
      simp only [← hctx]
      rw [if_neg hb]
      rcases index with _ | idx <;>
        rcases hl : ls.language with _ | l <;> rcases hd : ls.direction with _ | d <;>
        refine ⟨_, rfl, ?_, ?_, ?_⟩ <;>
        by_cases hc : (effective_container ctx active_property).contains
          ContainerType.index = true <;>
        simp [hc, Obj.get_insert_ne, Obj.get_insert_self, Obj.get,
          hvl ctx, hvd ctx, hvi ctx, hld ctx, hli ctx, hdi ctx,
          Ne.symm (hvl ctx), Ne.symm (hvd ctx), Ne.symm (hvi ctx),
          Ne.symm (hld ctx), Ne.symm (hli ctx), Ne.symm (hdi ctx)]
    obtain ⟨m, h1, h2, h3, h4⟩ := hobj
    refine ⟨iff_of_false ?_ hnb, fun hbare => absurd hbare hnb,
      fun _ => ⟨m, h1, h2, h3, h4⟩⟩
    rintro ⟨s, hs⟩
    rw [h1] at hs
    cases hs

/-!
Section: Collection compaction (claims C1 and C8)
-/

/-- The per-item loop of `compact_collection_with` computes exactly: compact
each item, drop the `null` results. -/
theorem compact_items_eq (ciri : Context → Term → String)
    (processLocal : Context → Json → Option String → Context)
    (compactNode : Node → Option String → Context → Context → Option String →
      Options → Json)
    (items : List IndexedObject) (active_context type_scoped_context : Context)
    (active_property : Option String) (options : Options) :
    compact_items ciri processLocal compactNode items active_context
        type_scoped_context active_property options =
      (items.map (fun item => compact_indexed_with ciri processLocal compactNode
        item.inner item.index active_context type_scoped_context
        active_property options)).filter (fun c => !c.is_null) := by
  induction items with
  | nil => rw [compact_items]; rfl
  | cons item rest ih =>
    cases item with
    | mk inner idx =>
      rw [compact_items]
      simp only [List.map_cons, List.filter_cons, IndexedObject.inner,
        IndexedObject.index]
      by_cases hn : (compact_indexed_with ciri processLocal compactNode inner
          idx active_context type_scoped_context active_property options).is_null <;>
        simp [hn, ih] <;> rfl

/-- C1: after compacting each element of a collection and dropping the null
results, the array is unwrapped to its single element iff exactly one
element survives, `compact_arrays` is set, the active property is neither
`@graph` nor `@set`, and the active property's definition in the active
context has a container containing neither `List` nor `Set`; otherwise an
array is returned.  (`Compact` for `HashSet<Indexed<Object>>` delegates to
`compact_collection_with` with the set's iteration sequence.) -/
theorem compact_collection_unwrap_iff (ciri : Context → Term → String)
    (processLocal : Context → Json → Option String → Context)
    (compactNode : Node → Option String → Context → Context → Option String →
      Options → Json)
    (items : List IndexedObject) (active_context type_scoped_context : Context)
    (active_property : Option String) (options : Options)
    (survivors : List Json)
    (hs : survivors = (items.map (fun item =>
        compact_indexed_with ciri processLocal compactNode item.inner
          item.index active_context type_scoped_context active_property
          options)).filter (fun c => !c.is_null)) :
    ((survivors.length = 1 ∧ options.compact_arrays = true ∧
        active_property ≠ some "@graph" ∧ active_property ≠ some "@set" ∧
        property_container_contains active_context active_property
          ContainerType.list = false ∧
        property_container_contains active_context active_property
          ContainerType.set = false) →
      ∃ x, survivors = [x] ∧
        compact_collection_with ciri processLocal compactNode items
          active_context type_scoped_context active_property options = x) ∧
    (¬ (survivors.length = 1 ∧ options.compact_arrays = true ∧
        active_property ≠ some "@graph" ∧ active_property ≠ some "@set" ∧
        property_container_contains active_context active_property
          ContainerType.list = false ∧
        property_container_contains active_context active_property
          ContainerType.set = false) →
      compact_collection_with ciri processLocal compactNode items
        active_context type_scoped_context active_property options =
        Json.array survivors) := by
  have hres : compact_collection_with ciri processLocal compactNode items
      active_context type_scoped_context active_property options =
    (if survivors.isEmpty
        || survivors.length > 1
        || !options.compact_arrays
        || active_property == some "@graph" || active_property == some "@set"
        || (property_container_contains active_context active_property
              ContainerType.list
            || property_container_contains active_context active_property
              ContainerType.set) then
      Json.array survivors
    else
      survivors.headD Json.null) := by
    rw [compact_collection_with, compact_items_eq, ← hs]
  constructor
  · rintro ⟨h1, h2, h3, h4, h5, h6⟩
    obtain ⟨x, hx⟩ := List.length_eq_one.mp h1
    refine ⟨x, hx, ?_⟩
    rw [hres, if_neg, hx]
    · rfl
    · subst hx
      simp [h2, h5, h6, Option.isSome, beq_iff_eq, h3, h4]
  · intro hP
    rw [hres]
    by_cases hC : (survivors.isEmpty
        || survivors.length > 1
        || !options.compact_arrays
        || active_property == some "@graph" || active_property == some "@set"
        || (property_container_contains active_context active_property
              ContainerType.list
            || property_container_contains active_context active_property
              ContainerType.set)) = true
    · rw [if_pos hC]
    · exfalso
      apply hP
      simp only [Bool.or_eq_true, not_or, Bool.not_eq_true', beq_iff_eq,
        decide_eq_true_eq, not_lt, Bool.not_eq_true] at hC
      obtain ⟨⟨⟨⟨⟨he, hl⟩, hca⟩, hg⟩, hst⟩, hlos⟩ := hC
      have hlen : survivors.length = 1 := by
        rcases survivors with _ | ⟨a, rest⟩
        · simp at he
        · simp at hl
          simp [hl]
      exact ⟨hlen, by simpa using hca, fun h => hg (by simp [h]),
        fun h => hst (by simp [h]), hlos.1, hlos.2⟩

/-!
Section: Concrete instances used by witnesses
-/

/-- Concrete IRI compactor: keywords and IRIs verbatim (the compact form in
an empty context). -/
def ciri0 : Context → Term → String := fun _ t => Term.toStr t

/-- Concrete context processor: identity. -/
def processLocal0 : Context → Json → Option String → Context := fun c _ _ => c

/-- Concrete node compactor: always `null`. -/
def compactNode0 : Node → Option String → Context → Context → Option String →
    Options → Json := fun _ _ _ _ _ _ => Json.null

/-- The empty processed context. -/
def ctx0 : Context := Context.mk [] none none none none none

/-- Options with `ordered` set. -/
def opts_ordered : Options := ⟨ProcessingMode.json_ld_1_1, true, true, true⟩

/-- Witness for C1: the empty collection compacts to the empty array. -/
theorem compact_collection_unwrap_iff_witness :
    compact_collection_with ciri0 processLocal0 compactNode0 [] ctx0 ctx0
      none Options.default = Json.array [] := by
  have h := compact_collection_unwrap_iff ciri0 processLocal0 compactNode0 []
    ctx0 ctx0 none Options.default [] rfl
  exact h.2 (by simp)

/-- Witness for C3: an untagged language string with no index compacts to
the bare string. -/
theorem compact_value_langstring_spec_witness :
    compact_indexed_value_with ciri0 processLocal0
      (Value.langString ⟨"hallo", none, none⟩) none ctx0 none
      Options.default = Json.string "hallo" := by
  have h := compact_value_langstring_spec ciri0 processLocal0
    ⟨"hallo", none, none⟩ none ctx0 none Options.default
    (fun c => by show ("@value" : String) ≠ "@language"; decide)
    (fun c => by show ("@value" : String) ≠ "@direction"; decide)
    (fun c => by show ("@value" : String) ≠ "@index"; decide)
    (fun c => by show ("@language" : String) ≠ "@direction"; decide)
    (fun c => by show ("@language" : String) ≠ "@index"; decide)
    (fun c => by show ("@direction" : String) ≠ "@index"; decide)
  exact h.2.1 ⟨Or.inr rfl, Or.inl rfl, Or.inl rfl⟩

/-- C8 (counterexample): with `ordered = true`, two runs over the same
two-element set of expanded objects, the same (empty) context and the same
options produce different JSON when the `HashSet` enumerates its elements in
different orders: the top-level array follows the iteration order. -/
theorem compact_collection_order_counterexample :
    ([IndexedObject.mk (Object.value (Value.literal (Literal.number 1) none)) none,
      IndexedObject.mk (Object.value (Value.literal (Literal.number 2) none)) none] :
        List IndexedObject).Perm
      [IndexedObject.mk (Object.value (Value.literal (Literal.number 2) none)) none,
        IndexedObject.mk (Object.value (Value.literal (Literal.number 1) none)) none] ∧
    opts_ordered.ordered = true ∧
    compact_collection_with ciri0 processLocal0 compactNode0
      [IndexedObject.mk (Object.value (Value.literal (Literal.number 1) none)) none,
        IndexedObject.mk (Object.value (Value.literal (Literal.number 2) none)) none]
      ctx0 ctx0 none opts_ordered = Json.array [Json.number 1, Json.number 2] ∧
    compact_collection_with ciri0 processLocal0 compactNode0
      [IndexedObject.mk (Object.value (Value.literal (Literal.number 2) none)) none,
        IndexedObject.mk (Object.value (Value.literal (Literal.number 1) none)) none]
      ctx0 ctx0 none opts_ordered = Json.array [Json.number 2, Json.number 1] ∧
    Json.array [Json.number 1, Json.number 2] ≠
      Json.array [Json.number 2, Json.number 1] := by
  refine ⟨List.Perm.swap _ _ _, rfl, ?_, ?_, by decide⟩ <;>
    simp [compact_collection_with, compact_items, compact_indexed_with,
      compact_indexed_value_with, value_active_context, effective_language,
      effective_direction, effective_type_mapping, effective_container,
      property_container_contains, ctx0, ciri0, processLocal0, compactNode0,
      Context.get, Json.is_null, Container.none, Container.contains,
      opts_ordered, IndexedObject.inner, IndexedObject.index,
      Context.default_language, Context.default_base_direction]

/-- C8 (amended): with `ordered = true`, compaction is a pure function of
its inputs together with the iteration order of the input set; for two
iteration orders of the same set the results agree exactly, or are both
top-level arrays that are permutations of each other (the element order
follows the set's iteration order, which the code does not sort). -/
theorem compact_collection_order_spec (ciri : Context → Term → String)
    (processLocal : Context → Json → Option String → Context)
    (compactNode : Node → Option String → Context → Context → Option String →
      Options → Json)
    (items1 items2 : List IndexedObject)
    (active_context type_scoped_context : Context)
    (active_property : Option String) (options : Options)
    (hord : options.ordered = true) (hperm : items1.Perm items2) :
    compact_collection_with ciri processLocal compactNode items1
        active_context type_scoped_context active_property options =
      compact_collection_with ciri processLocal compactNode items2
        active_context type_scoped_context active_property options ∨
    ∃ l1 l2,
      compact_collection_with ciri processLocal compactNode items1
          active_context type_scoped_context active_property options =
        Json.array l1 ∧
      compact_collection_with ciri processLocal compactNode items2
          active_context type_scoped_context active_property options =
        Json.array l2 ∧
      l1.Perm l2 := by
  have hp : (compact_items ciri processLocal compactNode items1 active_context
        type_scoped_context active_property options).Perm
      (compact_items ciri processLocal compactNode items2 active_context
        type_scoped_context active_property options) := by
    rw [compact_items_eq, compact_items_eq]
    exact (hperm.map _).filter _
  set r1 := compact_items ciri processLocal compactNode items1 active_context
    type_scoped_context active_property options with hr1
  set r2 := compact_items ciri processLocal compactNode items2 active_context
    type_scoped_context active_property options with hr2
  have hlen : r1.length = r2.length := hp.length_eq
  have hie : r1.isEmpty = r2.isEmpty := by
    cases h1 : r1.isEmpty <;> cases h2 : r2.isEmpty <;>
      simp_all [List.isEmpty_eq_true, List.isEmpty_eq_false,
        List.length_eq_zero]
  have hres1 : compact_collection_with ciri processLocal compactNode items1
      active_context type_scoped_context active_property options =
    (if r1.isEmpty || r1.length > 1 || !options.compact_arrays
        || active_property == some "@graph" || active_property == some "@set"
        || (property_container_contains active_context active_property
              ContainerType.list
            || property_container_contains active_context active_property
              ContainerType.set) then
      Json.array r1
    else r1.headD Json.null) := by
    rw [compact_collection_with]
  have hres2 : compact_collection_with ciri processLocal compactNode items2
      active_context type_scoped_context active_property options =
    (if r2.isEmpty || r2.length > 1 || !options.compact_arrays
        || active_property == some "@graph" || active_property == some "@set"
        || (property_container_contains active_context active_property
              ContainerType.list
            || property_container_contains active_context active_property
              ContainerType.set) then
      Json.array r2
    else r2.headD Json.null) := by
    rw [compact_collection_with]
  have hcond_eq : (r2.isEmpty || r2.length > 1 || !options.compact_arrays
        || active_property == some "@graph" || active_property == some "@set"
        || (property_container_contains active_context active_property
              ContainerType.list
            || property_container_contains active_context active_property
              ContainerType.set))
      = (r1.isEmpty || r1.length > 1 || !options.compact_arrays
        || active_property == some "@graph" || active_property == some "@set"
        || (property_container_contains active_context active_property
              ContainerType.list
            || property_container_contains active_context active_property
              ContainerType.set)) := by
    rw [← hlen, ← hie]
  by_cases hC : (r1.isEmpty || r1.length > 1 || !options.compact_arrays
        || active_property == some "@graph" || active_property == some "@set"
        || (property_container_contains active_context active_property
              ContainerType.list
            || property_container_contains active_context active_property
              ContainerType.set)) = true
  · right
    exact ⟨r1, r2, by rw [hres1, if_pos hC],
      by rw [hres2, if_pos (hcond_eq.trans hC)], hp⟩
  · left
    have hC2 : ¬ ((r2.isEmpty || r2.length > 1 || !options.compact_arrays
        || active_property == some "@graph" || active_property == some "@set"
        || (property_container_contains active_context active_property
              ContainerType.list
            || property_container_contains active_context active_property
              ContainerType.set)) = true) := by
      rw [hcond_eq]
      exact hC
    have hlen1 : r1.length = 1 := by
      simp only [Bool.or_eq_true, not_or, Bool.not_eq_true',
        decide_eq_true_eq, not_lt] at hC
      obtain ⟨⟨⟨⟨⟨he, hl⟩, _⟩, _⟩, _⟩, _⟩ := hC
      rcases hv : r1 with _ | ⟨a, rest⟩
      · rw [hv] at he
        simp at he
      · rw [hv] at hl
        simp at hl
        simp [hv, hl]
    obtain ⟨x, hx1⟩ := List.length_eq_one.mp hlen1
    have hx2 : r2 = [x] := by
      rw [hx1] at hp
      exact List.perm_singleton.mp hp.symm
    rw [hres1, if_neg hC, hres2, if_neg hC2, hx1, hx2]

/-- Witness for C8 (amended): the empty iteration order, twice. -/
theorem compact_collection_order_spec_witness :
    compact_collection_with ciri0 processLocal0 compactNode0 [] ctx0 ctx0
        none opts_ordered =
      compact_collection_with ciri0 processLocal0 compactNode0 [] ctx0 ctx0
        none opts_ordered ∨
    ∃ l1 l2,
      compact_collection_with ciri0 processLocal0 compactNode0 [] ctx0 ctx0
          none opts_ordered = Json.array l1 ∧
      compact_collection_with ciri0 processLocal0 compactNode0 [] ctx0 ctx0
          none opts_ordered = Json.array l2 ∧
      l1.Perm l2 :=
  compact_collection_order_spec ciri0 processLocal0 compactNode0 [] [] ctx0
    ctx0 none opts_ordered rfl List.Perm.nil

/-!
Section: The list branch of the compaction driver (claim C2)
-/

/-- C2: compacting a `List` object under an active property: the previous
context (when present) first replaces the active context; the property's
definition is looked up in the *type-scoped* context and its local context
(processed with override) becomes the active context of the recursion; the
inner sequence is compacted bare iff that type-scoped definition's container
contains `List`; otherwise a single compacted `@list` entry is emitted, with
a compacted `@index` entry exactly when the list carries an index and the
active property's container in the (possibly switched) active context does
not include `Index`. -/
theorem compact_list_branch_spec (ciri : Context → Term → String)
    (processLocal : Context → Json → Option String → Context)
    (compactNode : Node → Option String → Context → Context → Option String →
      Options → Json)
    (items : List IndexedObject) (index : Option String)
    (active_context type_scoped_context : Context)
    (active_property : Option String) (options : Options) :
    ∀ ctx2 list_container,
      (ctx2, list_container) = list_scoped_step processLocal
        (restore_previous_context active_context) type_scoped_context
        active_property →
      ciri ctx2 (Term.keyword Keyword.list) ≠
        ciri ctx2 (Term.keyword Keyword.index) →
      (list_container = true →
        compact_indexed_with ciri processLocal compactNode
            (Object.list items) index active_context type_scoped_context
            active_property options =
          compact_collection_with ciri processLocal compactNode items ctx2
            ctx2 active_property options) ∧
      (list_container = false →
        ∃ m v, compact_indexed_with ciri processLocal compactNode
              (Object.list items) index active_context type_scoped_context
              active_property options = Json.object m ∧
          Obj.get m (ciri ctx2 (Term.keyword Keyword.list)) = some v ∧
          Obj.get m (ciri ctx2 (Term.keyword Keyword.index)) =
            (match index with
              | some idx =>
                if property_container_contains ctx2 active_property
                    ContainerType.index then none
                else some (Json.string idx)
              | none => none) ∧
          (∀ k, k ≠ ciri ctx2 (Term.keyword Keyword.list) →
            k ≠ ciri ctx2 (Term.keyword Keyword.index) →
            Obj.get m k = none)) := by
  intro ctx2 list_container heq hk
  have hres : compact_indexed_with ciri processLocal compactNode
      (Object.list items) index active_context type_scoped_context
      active_property options =
    (if list_container then
      compact_collection_with ciri processLocal compactNode items ctx2 ctx2
        active_property options
    else
      let result := compact_property ciri processLocal compactNode []
        (Term.keyword Keyword.list) items ctx2 false options
      let result :=
        match index with
        | some idx =>
          if property_container_contains ctx2 active_property
              ContainerType.index then result
          else
            Obj.insert result (ciri ctx2 (Term.keyword Keyword.index))
              (Json.string idx)
        | none => result
      Json.object result) := by
    rw [compact_indexed_with, ← heq]
  cases list_container with
  | true =>
    refine ⟨fun _ => ?_, fun hf => (by cases hf)⟩
    rw [hres]
    rfl
  | false =>
    refine ⟨fun ht => (by cases ht), fun _ => ?_⟩
    have hprop : compact_property ciri processLocal compactNode []
        (Term.keyword Keyword.list) items ctx2 false options =
      Obj.insert [] (ciri ctx2 (Term.keyword Keyword.list))
        (compact_collection_with ciri processLocal compactNode items ctx2
          ctx2 (some (ciri ctx2 (Term.keyword Keyword.list))) options) := by
      rw [compact_property]
    rcases index with _ | idx
    · refine ⟨_, compact_collection_with ciri processLocal compactNode items ctx2 ctx2
          (some (ciri ctx2 (Term.keyword Keyword.list))) options,
        by rw [hres]; rfl, ?_, ?_, ?_⟩
      · simp [hprop, Obj.get_insert_self]
      · simp [hprop, Obj.get_insert_ne, Ne.symm hk, Obj.get]
      · intro k hk1 hk2
        simp [hprop, Obj.get_insert_ne, hk1, hk2, Ne.symm hk1, Ne.symm hk2,
          Obj.get]
    · by_cases hic : property_container_contains ctx2 active_property
          ContainerType.index = true
      · refine ⟨_, compact_collection_with ciri processLocal compactNode items ctx2 ctx2
            (some (ciri ctx2 (Term.keyword Keyword.list))) options,
          by rw [hres]; simp only [hic]; rfl, ?_, ?_, ?_⟩
        · simp [hprop, hic, Obj.get_insert_self]
        · simp [hprop, hic, Obj.get_insert_ne, Ne.symm hk, Obj.get]
        · intro k hk1 hk2
          simp [hprop, hic, Obj.get_insert_ne, hk1, hk2, Ne.symm hk1,
            Ne.symm hk2, Obj.get]
      · rw [Bool.not_eq_true] at hic
        refine ⟨_, compact_collection_with ciri processLocal compactNode items ctx2 ctx2
            (some (ciri ctx2 (Term.keyword Keyword.list))) options,
          by rw [hres]; simp only [hic]; rfl, ?_, ?_, ?_⟩
        · simp [hprop, hic, Obj.get_insert_ne, hk, Obj.get_insert_self]
        · simp [hprop, hic, Obj.get_insert_self]
        · intro k hk1 hk2
          simp [hprop, hic, Obj.get_insert_ne, hk1, hk2, Ne.symm hk1,
            Ne.symm hk2, Obj.get]

/-- Witness for C2: an empty list, no active property, no index. -/
theorem compact_list_branch_spec_witness :
    ∃ m v, compact_indexed_with ciri0 processLocal0 compactNode0
        (Object.list []) none ctx0 ctx0 none Options.default =
        Json.object m ∧
      Obj.get m (ciri0 ctx0 (Term.keyword Keyword.list)) = some v ∧
      Obj.get m (ciri0 ctx0 (Term.keyword Keyword.index)) = none ∧
      (∀ k, k ≠ ciri0 ctx0 (Term.keyword Keyword.list) →
        k ≠ ciri0 ctx0 (Term.keyword Keyword.index) → Obj.get m k = none) :=
  (compact_list_branch_spec ciri0 processLocal0 compactNode0 [] none ctx0
      ctx0 none Options.default ctx0 false rfl
      (by show ("@list" : String) ≠ "@index"; decide)).2 rfl

/-!
Section: Root assembly of `Document::compact_with` (claims C5 and C6)
-/

/-- C5: in `Document::compact_with`, the supplied context is attached to the
root object under the `"@context"` key exactly when the JSON form of that
context is non-null and non-empty and the assembled root object is
non-empty; in every other case the output carries no context entry (given
that the compacted body itself carries none). -/
theorem document_context_attach_iff (ciri : Context → Term → String)
    (context : Context) (compacted json_context : Json)
    (hg : ciri context (Term.keyword Keyword.graph) ≠ "@context")
    (hclean : ∀ m, compacted = Json.object m → Obj.get m "@context" = none) :
    ∀ map, document_root_map ciri context compacted = some map →
      ∃ m', document_compact_assemble ciri context compacted json_context =
          some (Json.object m') ∧
        (Obj.get m' "@context" = some json_context ↔
          (map.isEmpty = false ∧ json_context.is_null = false ∧
            json_context.is_empty = false)) ∧
        (¬ (map.isEmpty = false ∧ json_context.is_null = false ∧
            json_context.is_empty = false) →
          Obj.get m' "@context" = none) := by
  intro map hmap
  have hnone : Obj.get map "@context" = none := by
    rcases compacted with _ | b | n | str | items | mo <;>
      simp [document_root_map] at hmap
    · by_cases hitems : items = []
      · rw [if_pos hitems] at hmap
        rw [← hmap]
        rfl
      · rw [if_neg hitems] at hmap
        rw [← hmap, Obj.get_insert_ne _ _ _ _ (Ne.symm hg)]
        rfl
    · rw [← hmap]
      exact hclean mo rfl
  by_cases hcond :
      ((!map.isEmpty && !json_context.is_null && !json_context.is_empty) = true)
  · refine ⟨Obj.insert map "@context" json_context, ?_, ?_, ?_⟩
    · unfold document_compact_assemble
      rw [hmap]
      simp [hcond]
    · rw [Obj.get_insert_self]
      simp only [Bool.and_eq_true, Bool.not_eq_true'] at hcond
      exact iff_of_true rfl ⟨hcond.1.1, hcond.1.2, hcond.2⟩
    · intro hcon
      exfalso
      apply hcon
      simp only [Bool.and_eq_true, Bool.not_eq_true'] at hcond
      exact ⟨hcond.1.1, hcond.1.2, hcond.2⟩
  · refine ⟨map, ?_, ?_, fun _ => hnone⟩
    · unfold document_compact_assemble
      rw [hmap]
      simp [hcond]
    · refine iff_of_false ?_ ?_
      · rw [hnone]
        exact fun h => Option.noConfusion h
      · rintro ⟨h1, h2, h3⟩
        exact hcond (by simp [h1, h2, h3])

/-- Witness for C5: an empty compacted object and a non-empty context — no
context entry is attached. -/
theorem document_context_attach_iff_witness :
    ∃ m', document_compact_assemble ciri0 ctx0 (Json.object [])
        (Json.object [("a", Json.string "b")]) = some (Json.object m') ∧
      (Obj.get m' "@context" = some (Json.object [("a", Json.string "b")]) ↔
        (([] : Obj).isEmpty = false ∧
          (Json.object [("a", Json.string "b")]).is_null = false ∧
          (Json.object [("a", Json.string "b")]).is_empty = false)) ∧
      (¬ (([] : Obj).isEmpty = false ∧
          (Json.object [("a", Json.string "b")]).is_null = false ∧
          (Json.object [("a", Json.string "b")]).is_empty = false) →
        Obj.get m' "@context" = none) :=
  document_context_attach_iff ciri0 ctx0 (Json.object [])
    (Json.object [("a", Json.string "b")])
    (by show ("@graph" : String) ≠ "@context"; decide)
    (fun m h => by injection h with h; rw [← h]; rfl) [] rfl

/-- C6 (counterexample): a non-empty top-level array together with a
non-empty supplied context: the returned root carries the `@graph` entry
*and* the `@context` entry, so it is not an object with a single entry. -/
theorem document_graph_wrap_counterexample :
    document_compact_assemble ciri0 ctx0 (Json.array [Json.null])
        (Json.object [("a", Json.string "b")]) =
      some (Json.object [("@graph", Json.array [Json.null]),
        ("@context", Json.object [("a", Json.string "b")])]) ∧
    Json.object [("@graph", Json.array [Json.null]),
        ("@context", Json.object [("a", Json.string "b")])] ≠
      Json.object [("@graph", Json.array [Json.null])] :=
  ⟨rfl, by decide⟩

/-- C6 (amended): when the recursive compaction yields an array, the root is
assembled as an object: empty when the array is empty, and otherwise with
the array stored under the IRI-compacted `@graph` key and no other entry —
except for the context entry that the final step of `compact_with` may
add. -/
theorem document_graph_wrap_spec (ciri : Context → Term → String)
    (context : Context) (items : List Json) (json_context : Json)
    (hg : ciri context (Term.keyword Keyword.graph) ≠ "@context") :
    ∃ m, document_compact_assemble ciri context (Json.array items)
        json_context = some (Json.object m) ∧
      (items = [] → m = []) ∧
      (items ≠ [] →
        Obj.get m (ciri context (Term.keyword Keyword.graph)) =
          some (Json.array items) ∧
        ∀ k, k ≠ ciri context (Term.keyword Keyword.graph) →
          k ≠ "@context" → Obj.get m k = none) := by
  rcases items with _ | ⟨x, xs⟩
  · exact ⟨[], rfl, fun _ => rfl, fun hne => absurd rfl hne⟩
  · have hroot : document_root_map ciri context (Json.array (x :: xs)) =
        some (Obj.insert [] (ciri context (Term.keyword Keyword.graph))
          (Json.array (x :: xs))) := by
      simp [document_root_map]
    by_cases hcond :
        ((!(Obj.insert [] (ciri context (Term.keyword Keyword.graph))
              (Json.array (x :: xs))).isEmpty
          && !json_context.is_null && !json_context.is_empty) = true)
    · refine ⟨Obj.insert (Obj.insert []
          (ciri context (Term.keyword Keyword.graph)) (Json.array (x :: xs)))
          "@context" json_context, ?_, fun h => (by cases h), fun _ => ⟨?_, ?_⟩⟩
      · unfold document_compact_assemble
        rw [hroot]
        simp [hcond]
      · rw [Obj.get_insert_ne _ _ _ _ hg]
        exact Obj.get_insert_self _ _ _
      · intro k hk1 hk2
        rw [Obj.get_insert_ne _ _ _ _ hk2, Obj.get_insert_ne _ _ _ _ hk1]
        rfl
    · refine ⟨Obj.insert [] (ciri context (Term.keyword Keyword.graph))
          (Json.array (x :: xs)), ?_, fun h => (by cases h), fun _ => ⟨?_, ?_⟩⟩
      · unfold document_compact_assemble
        rw [hroot]
        simp [hcond]
      · exact Obj.get_insert_self _ _ _
      · intro k hk1 _
        rw [Obj.get_insert_ne _ _ _ _ hk1]
        rfl

/-- Witness for C6 (amended): a singleton array and a null context. -/
theorem document_graph_wrap_spec_witness :
    ∃ m, document_compact_assemble ciri0 ctx0 (Json.array [Json.null])
        Json.null = some (Json.object m) ∧
      (([Json.null] : List Json) = [] → m = []) ∧
      (([Json.null] : List Json) ≠ [] →
        Obj.get m (ciri0 ctx0 (Term.keyword Keyword.graph)) =
          some (Json.array [Json.null]) ∧
        ∀ k, k ≠ ciri0 ctx0 (Term.keyword Keyword.graph) →
          k ≠ "@context" → Obj.get m k = none) :=
  document_graph_wrap_spec ciri0 ctx0 [Json.null] Json.null
    (by show ("@graph" : String) ≠ "@context"; decide)

end JsonLd
